import Mathlib

/-!
Verification development for the Redis-backed `Cache` module
(`0x0B_redis_basic/exercise.py`).

The module is a thin instrumentation layer over a key-value store:
`Cache.store` writes a payload under a fresh random key and is wrapped by two
decorators (`count_calls`, `call_history`); `Cache.get`/`get_str`/`get_int`
read values back; `replay` prints the recorded call history.

Embedding choices:
* Byte strings (Python `bytes` and `str` contents alike) are modelled as
  `List Char`; each `Char` stands for one byte.  All textual data handled by
  the module is ASCII, so this is faithful.
* The Redis database is an association list from keys to values, where a
  value is either a byte string or a list of byte strings (the only two Redis
  types the module touches).  Newer writes are consed on and shadow older
  entries.
* Every method is a function from the cache state to a result
  (`Except Err`), the successor state, and the list of Redis commands issued
  (the event trace), so that ordering-of-side-effect claims are statable.
* `uuid.uuid4()` is modelled by a supply `Nat → Str` of key strings carried
  in the state together with a cursor; freshness/uniqueness of UUIDs becomes
  an explicit hypothesis on the supply.
* Python floats are carried by their decimal representation string (the
  exact bytes the redis client writes for them); no claim inspects float
  arithmetic.
-/

set_option linter.unusedVariables false

/-- Byte strings: one `Char` per byte. -/
abbrev Str := List Char

/-- Bytes of a Lean string literal. -/
def bytes (s : String) : Str := s.data

/-- The single-quote character, used by Python `repr` of strings/bytes. -/
def squote : Char := Char.ofNat 39

/-- ASCII digit character for a digit value below ten. -/
def digitChar (d : Nat) : Char := Char.ofNat (48 + d)

/-- Decimal digits of a natural number, most significant first; `fuel`
bounds the recursion depth (any `fuel > n` yields the digits of `n`). -/
def natToStrAux : Nat → Nat → Str
  | 0, _ => []
  | fuel + 1, n =>
    if n < 10 then [digitChar n]
    else natToStrAux fuel (n / 10) ++ [digitChar (n % 10)]

/-- Decimal representation of a natural number (Python `str(n)`). -/
def natToStr (n : Nat) : Str := natToStrAux (n + 1) n

/-- Decimal representation of an integer (Python `str(n)`, the bytes redis
stores for an integer payload or counter). -/
def intToStr (n : Int) : Str :=
  if n < 0 then Char.ofNat 45 :: natToStr n.natAbs else natToStr n.toNat

/-- Numeric value of an ASCII digit character, if it is one. -/
def digitVal (c : Char) : Option Nat :=
  if 48 ≤ c.toNat ∧ c.toNat ≤ 57 then some (c.toNat - 48) else Option.none

/-- Left-to-right decimal accumulation over a digit string. -/
def decodeNatAux : Str → Nat → Option Nat
  | [], acc => some acc
  | c :: rest, acc =>
    match digitVal c with
    | some d => decodeNatAux rest (acc * 10 + d)
    | Option.none => Option.none

/-- Parse a non-empty all-digit byte string as a natural number. -/
def decodeNat (b : Str) : Option Nat :=
  match b with
  | [] => Option.none
  | _ => decodeNatAux b 0

/-- Parse a byte string as a base-10 integer with an optional sign
(the common core of Python `int(bytes)` and the parse Redis `INCR`
performs on a stored value). -/
def decodeInt (b : Str) : Option Int :=
  match b with
  | [] => Option.none
  | c :: rest =>
    if c = Char.ofNat 45 then (decodeNat rest).map (fun k => -(k : Int))
    else if c = Char.ofNat 43 then (decodeNat rest).map (fun k => (k : Int))
    else (decodeNat (c :: rest)).map (fun k => (k : Int))

theorem digitVal_digitChar (d : Nat) (h : d < 10) :
    digitVal (digitChar d) = some d := by
  interval_cases d <;> decide

theorem digitChar_toNat (d : Nat) (h : d < 10) :
    (digitChar d).toNat = 48 + d := by
  interval_cases d <;> decide

theorem natToStrAux_ne_nil (fuel n : Nat) (h : n < fuel) :
    natToStrAux fuel n ≠ [] := by
  cases fuel with
  | zero => omega
  | succ f =>
    simp only [natToStrAux]
    split
    · simp
    · simp

theorem natToStrAux_digits (fuel : Nat) :
    ∀ n c, c ∈ natToStrAux fuel n → 48 ≤ c.toNat ∧ c.toNat ≤ 57 := by
  induction fuel with
  | zero => intro n c hc; simp [natToStrAux] at hc
  | succ f ih =>
    intro n c hc
    simp only [natToStrAux] at hc
    split at hc
    · simp only [List.mem_singleton] at hc
      subst hc
      rw [digitChar_toNat n (by omega)]
      omega
    · rcases List.mem_append.mp hc with h1 | h2
      · exact ih _ _ h1
      · simp only [List.mem_singleton] at h2
        subst h2
        rw [digitChar_toNat (n % 10) (Nat.mod_lt _ (by omega))]
        have := Nat.mod_lt n (show 0 < 10 by omega)
        omega

theorem decodeNatAux_append (l1 l2 : Str) :
    ∀ acc, decodeNatAux (l1 ++ l2) acc =
      match decodeNatAux l1 acc with
      | some m => decodeNatAux l2 m
      | Option.none => Option.none := by
  induction l1 with
  | nil => intro acc; rfl
  | cons c rest ih =>
    intro acc
    simp only [List.cons_append, decodeNatAux]
    cases digitVal c with
    | none => rfl
    | some d => exact ih _

theorem decodeNatAux_natToStrAux (fuel : Nat) :
    ∀ n acc, n < fuel →
      decodeNatAux (natToStrAux fuel n) acc =
        some (acc * 10 ^ (natToStrAux fuel n).length + n) := by
  induction fuel with
  | zero => intro n acc h; omega
  | succ f ih =>
    intro n acc h
    simp only [natToStrAux]
    split
    · rename_i hlt
      simp only [decodeNatAux, digitVal_digitChar n hlt, List.length_singleton]
      norm_num
    · rename_i hge
      push_neg at hge
      have hdiv : n / 10 < n := Nat.div_lt_self (by omega) (by omega)
      have hfuel : n / 10 < f := by omega
      rw [decodeNatAux_append]
      rw [ih (n / 10) acc hfuel]
      have hmod : n % 10 < 10 := Nat.mod_lt _ (by omega)
      simp only [decodeNatAux, digitVal_digitChar (n % 10) hmod,
        List.length_append, List.length_singleton]
      congr 1
      have hdm : 10 * (n / 10) + n % 10 = n := Nat.div_add_mod n 10
      set P := 10 ^ (natToStrAux f (n / 10)).length with hP
      calc (acc * P + n / 10) * 10 + n % 10
          = acc * (P * 10) + (10 * (n / 10) + n % 10) := by ring
        _ = acc * (P * 10) + n := by rw [hdm]
        _ = acc * 10 ^ ((natToStrAux f (n / 10)).length + 1) + n := by
            rw [pow_succ]

theorem decodeNat_natToStr (n : Nat) : decodeNat (natToStr n) = some n := by
  have hne : natToStr n ≠ [] := natToStrAux_ne_nil (n + 1) n (by omega)
  have hmain : decodeNatAux (natToStr n) 0 = some n := by
    unfold natToStr
    rw [decodeNatAux_natToStrAux (n + 1) n 0 (by omega)]
    norm_num
  cases hcase : natToStr n with
  | nil => exact absurd hcase hne
  | cons c rest =>
    rw [hcase] at hmain
    simpa [decodeNat] using hmain

theorem natToStr_head_digit (n : Nat) (c : Char) (rest : Str)
    (h : natToStr n = c :: rest) : 48 ≤ c.toNat ∧ c.toNat ≤ 57 := by
  have : c ∈ natToStrAux (n + 1) n := by
    unfold natToStr at h
    rw [h]
    exact List.mem_cons_self c rest
  exact natToStrAux_digits (n + 1) n c this

theorem decodeInt_natToStr (n : Nat) : decodeInt (natToStr n) = some (n : Int) := by
  have hne : natToStr n ≠ [] := natToStrAux_ne_nil (n + 1) n (by omega)
  cases hcase : natToStr n with
  | nil => exact absurd hcase hne
  | cons c rest =>
    have hdig := natToStr_head_digit n c rest hcase
    have h45 : ¬ c = Char.ofNat 45 := by
      intro hc
      subst hc
      exact absurd hdig (by decide)
    have h43 : ¬ c = Char.ofNat 43 := by
      intro hc
      subst hc
      exact absurd hdig (by decide)
    simp only [decodeInt, if_neg h45, if_neg h43]
    rw [← hcase, decodeNat_natToStr]
    rfl

theorem decodeInt_intToStr (m : Int) : decodeInt (intToStr m) = some m := by
  unfold intToStr
  split
  · rename_i hneg
    simp only [decodeInt, if_pos rfl]
    rw [decodeNat_natToStr]
    have h : -(m.natAbs : Int) = m := by omega
    show some (-(m.natAbs : Int)) = some m
    rw [h]
  · rename_i hpos
    push_neg at hpos
    rw [decodeInt_natToStr]
    have h : ((m.toNat : Nat) : Int) = m := by omega
    rw [h]

theorem intToStr_ofNat (c : Nat) : intToStr (c : Int) = natToStr c := by
  unfold intToStr
  rw [if_neg (by omega)]
  have h : ((c : Int)).toNat = c := by omega
  rw [h]

/-! ## The Redis data model -/

/-- A Redis value as used by this module: a byte string (`SET`/`GET`/`INCR`)
or a list of byte strings (`RPUSH`/`LRANGE`). -/
inductive RVal where
  | str (b : Str)
  | list (l : List Str)
deriving DecidableEq

/-- The database: an association list from keys to values; a newer write is
consed on and shadows any older entry for the same key. -/
abbrev RState := List (Str × RVal)

/-- Value currently stored under a key, if any. -/
def rlookup : RState → Str → Option RVal
  | [], _ => Option.none
  | (k, v) :: rest, key => if k = key then some v else rlookup rest key

theorem rlookup_cons_self (k : Str) (v : RVal) (st : RState) :
    rlookup ((k, v) :: st) k = some v := by
  simp [rlookup]

theorem rlookup_cons_ne (k key : Str) (v : RVal) (st : RState)
    (h : k ≠ key) : rlookup ((k, v) :: st) key = rlookup st key := by
  simp [rlookup, h]

/-- A payload accepted by `Cache.store`
(`Union[str, bytes, int, float]`).  A float is carried as the decimal
representation string the redis client writes for it. -/
inductive Payload where
  | str (s : Str)
  | bytes (b : Str)
  | int (n : Int)
  | float (r : Str)
deriving DecidableEq

/-- The bytes the external store holds for a payload (redis-py encodes text
as UTF-8, keeps bytes as-is, and writes numbers in decimal). -/
def encodePayload : Payload → Str
  | .str s => s
  | .bytes b => b
  | .int n => intToStr n
  | .float r => r

/-- Python `repr` of a payload, as it appears inside `str(args)`.
(Faithful for quote-free text, which is all the module ever records.) -/
def pyRepr : Payload → Str
  | .str s => squote :: s ++ [squote]
  | .bytes b => 'b' :: squote :: b ++ [squote]
  | .int n => intToStr n
  | .float r => r

/-- Python `str(args)` for the one-element positional tuple `(data,)`. -/
def pyStrTuple1 (p : Payload) : Str := '(' :: (pyRepr p ++ [',', ')'])

/-- A Python value returned by the `get*` accessors: raw bytes, decoded
text, a parsed integer, or `None` (the absent-key sentinel). -/
inductive PyVal where
  | bytes (b : Str)
  | str (s : Str)
  | int (n : Int)
  | none
deriving DecidableEq

/-- Errors that surface as exceptions. -/
inductive Err where
  | wrongType      -- redis WRONGTYPE: command against a key of another type
  | notAnInteger   -- redis INCR on a value that is not an integer
  | valueError     -- Python ValueError from int() on non-numeric bytes
  | typeError      -- Python TypeError (e.g. int(None))
  | malformedInput -- replay: eval of a recorded input that is not a literal
deriving DecidableEq

/-- One Redis command issued by the module (the observable side effects). -/
inductive Event where
  | setE (k v : Str)
  | getE (k : Str)
  | incrE (k : Str)
  | rpushE (k v : Str)
  | lrangeE (k : Str)
  | flushE
deriving DecidableEq

/-- The full program state: the shared database, plus the model of
`uuid.uuid4()` as a supply of key strings with a cursor. -/
structure CState where
  redis : RState
  next : Nat
  supply : Nat → Str

/-- A computation: from a state to a result (or raised error), the successor
state, and the trace of Redis commands issued, in order. -/
def M (α : Type) : Type := CState → Except Err α × CState × List Event

def M.pure (a : α) : M α := fun s => (.ok a, s, [])

def M.bind (m : M α) (f : α → M β) : M β := fun s =>
  match m s with
  | (.ok a, s1, tr1) =>
    match f a s1 with
    | (r, s2, tr2) => (r, s2, tr1 ++ tr2)
  | (.error e, s1, tr1) => (.error e, s1, tr1)

/-- Run a pure `Except` value inside `M` (a Python expression that may
raise but touches no Redis state). -/
def liftE (e : Except Err α) : M α := fun s => (e, s, [])

def runRes (m : M α) (s : CState) : Except Err α := (m s).1

def runState (m : M α) (s : CState) : CState := (m s).2.1

def runTrace (m : M α) (s : CState) : List Event := (m s).2.2

/-! ## Redis commands -/

/-- `self._redis.get(key)`: bytes for a string value, `None` when absent,
WRONGTYPE against a list. -/
def redis_get (key : Str) : M (Option Str) := fun s =>
  match rlookup s.redis key with
  | Option.none => (.ok Option.none, s, [.getE key])
  | some (RVal.str b) => (.ok (some b), s, [.getE key])
  | some (RVal.list _) => (.error .wrongType, s, [.getE key])

/-- `self._redis.set(key, v)`: overwrites whatever was stored. -/
def redis_set (key v : Str) : M Unit := fun s =>
  (.ok (), { s with redis := (key, RVal.str v) :: s.redis }, [.setE key v])

/-- `self._redis.incr(key)`: absent counts as 0; the stored bytes must
parse as an integer. -/
def redis_incr (key : Str) : M Int := fun s =>
  match rlookup s.redis key with
  | Option.none =>
    (.ok 1, { s with redis := (key, RVal.str (intToStr 1)) :: s.redis },
     [.incrE key])
  | some (RVal.str b) =>
    match decodeInt b with
    | some n =>
      (.ok (n + 1),
       { s with redis := (key, RVal.str (intToStr (n + 1))) :: s.redis },
       [.incrE key])
    | Option.none => (.error .notAnInteger, s, [.incrE key])
  | some (RVal.list _) => (.error .wrongType, s, [.incrE key])

/-- `self._redis.rpush(key, v)`: appends to the list, creating it if the
key is absent; WRONGTYPE against a string value. -/
def redis_rpush (key v : Str) : M Nat := fun s =>
  match rlookup s.redis key with
  | Option.none =>
    (.ok 1, { s with redis := (key, RVal.list [v]) :: s.redis },
     [.rpushE key v])
  | some (RVal.list l) =>
    (.ok (l.length + 1),
     { s with redis := (key, RVal.list (l ++ [v])) :: s.redis },
     [.rpushE key v])
  | some (RVal.str _) => (.error .wrongType, s, [.rpushE key v])

/-- `self._redis.lrange(key, 0, -1)`: the whole list; empty when absent. -/
def redis_lrange_all (key : Str) : M (List Str) := fun s =>
  match rlookup s.redis key with
  | some (RVal.list l) => (.ok l, s, [.lrangeE key])
  | some (RVal.str _) => (.error .wrongType, s, [.lrangeE key])
  | Option.none => (.ok [], s, [.lrangeE key])

/-- `self._redis.flushdb()`. -/
def flushdb : M Unit := fun s => (.ok (), { s with redis := [] }, [.flushE])

/-- `str(uuid.uuid4())`: the next key from the supply.  Not a Redis
command, so it leaves no event. -/
def uuid4 : M Str := fun s =>
  (.ok (s.supply s.next), { s with next := s.next + 1 }, [])

/-! ## The decorators and the Cache methods -/

/-- `count_calls`: increments the counter stored under the method's
qualified name, then runs the method. -/
def count_calls (qualname : Str) (method : α → M β) : α → M β :=
  fun a => M.bind (redis_incr qualname) (fun _ => method a)

/-- `call_history`: pushes `str(args)` onto `<name>:inputs`, runs the
method, pushes `str(result)` onto `<name>:outputs`, returns the result.
`reprArgs`/`reprResult` are the `str(·)` serializations for the method's
argument tuple and result. -/
def call_history (qualname : Str) (reprArgs : α → Str) (reprResult : β → Str)
    (method : α → M β) : α → M β :=
  fun a =>
    M.bind (redis_rpush (qualname ++ bytes ":inputs") (reprArgs a)) (fun _ =>
    M.bind (method a) (fun result =>
    M.bind (redis_rpush (qualname ++ bytes ":outputs") (reprResult result)) (fun _ =>
    M.pure result)))

/-- `Cache.store.__qualname__`. -/
def storeQualname : Str := bytes "Cache.store"

def inputsKey : Str := storeQualname ++ bytes ":inputs"

def outputsKey : Str := storeQualname ++ bytes ":outputs"

/-- The keys the instrumentation itself writes to. -/
def reservedKeys : List Str := [storeQualname, inputsKey, outputsKey]

/-- The body of `Cache.store`: generate a fresh key, `SET` the payload
under it, return the key. -/
def store_raw (data : Payload) : M Str :=
  M.bind uuid4 (fun key =>
  M.bind (redis_set key (encodePayload data)) (fun _ =>
  M.pure key))

/-- `Cache.store`, with its two decorators applied
(`@call_history` outermost, `@count_calls` innermost).  The result of the
raw method is already a Python string, so `str(result)` is the identity. -/
def Cache.store : Payload → M Str :=
  call_history storeQualname (fun data => pyStrTuple1 data) (fun key => key)
    (count_calls storeQualname store_raw)

/-- A converter passed to `Cache.get`; it receives the raw reply (bytes or
`None`) and may raise. -/
abbrev Conv := Option Str → Except Err PyVal

/-- The value `Cache.get` returns when no converter is supplied. -/
def pyOfRaw : Option Str → PyVal
  | Option.none => PyVal.none
  | some b => PyVal.bytes b

/-- `Cache.get(key, fn)`: read the raw value; apply `fn` when supplied
(`if fn:` — `None` is the only falsy converter), else return it as is. -/
def Cache.get (key : Str) (fn : Option Conv) : M PyVal :=
  M.bind (redis_get key) (fun value =>
    match fn with
    | some f => liftE (f value)
    | Option.none => M.pure (pyOfRaw value))

/-- `Cache.get_str`: `value.decode("utf-8") if value else value` — only a
non-empty byte string is truthy and gets decoded. -/
def Cache.get_str (key : Str) : M PyVal :=
  M.bind (Cache.get key Option.none) (fun value =>
    M.pure (match value with
      | PyVal.bytes b => if b = [] then PyVal.bytes b else PyVal.str b
      | v => v))

/-- `Cache.get_int`: `int(value) if value else value`; `int()` on
non-numeric bytes raises ValueError. -/
def Cache.get_int (key : Str) : M PyVal :=
  M.bind (Cache.get key Option.none) (fun value =>
    match value with
    | PyVal.bytes b =>
      if b = [] then M.pure (PyVal.bytes b)
      else
        match decodeInt b with
        | some n => M.pure (PyVal.int n)
        | Option.none => liftE (.error .valueError)
    | v => M.pure v)

/-- `Cache.__init__`: connect and `flushdb()` — construction clears the
shared database. -/
def Cache.init : M Unit := flushdb

/-! ## replay -/

/-- `eval` of a recorded `str((data,))` representation, for the literal
shapes this module ever records.  Anything else raises. -/
def pyEvalAtom (m : Str) : Except Err Payload :=
  match m with
  | c :: inner =>
    if c = squote then
      if inner.getLast? = some squote then .ok (.str inner.dropLast)
      else .error .malformedInput
    else if c = 'b' then
      match inner with
      | q :: inner2 =>
        if q = squote ∧ inner2.getLast? = some squote then
          .ok (.bytes inner2.dropLast)
        else .error .malformedInput
      | [] => .error .malformedInput
    else
      match decodeInt (c :: inner) with
      | some n => .ok (.int n)
      | Option.none => .error .malformedInput
  | [] => .error .malformedInput

/-- `eval(inp.decode("utf-8"))` for a one-element tuple literal. -/
def pyEvalTuple1 (b : Str) : Except Err Payload :=
  match b with
  | c :: rest =>
    if c = '(' ∧ rest.length ≥ 2 ∧ rest.drop (rest.length - 2) = [',', ')'] then
      pyEvalAtom (rest.take (rest.length - 2))
    else .error .malformedInput
  | [] => .error .malformedInput

/-- One printed history line:
`<name>(*<str(eval(inp))>) -> <out>`. -/
def replayLine (qualname inp out : Str) : Except Err Str :=
  match pyEvalTuple1 inp with
  | .ok t =>
    .ok (qualname ++ bytes "(*" ++ pyStrTuple1 t ++ bytes ") -> " ++ out)
  | .error e => .error e

def replayLines (qualname : Str) : List (Str × Str) → Except Err (List Str)
  | [] => .ok []
  | (inp, out) :: rest =>
    match replayLine qualname inp out with
    | .ok line => (replayLines qualname rest).map (fun ls => line :: ls)
    | .error e => .error e

/-- `replay(method)`: constructs a fresh `Cache()` (whose `__init__`
flushes the shared database), reads both history lists, and produces the
printed lines — the summary line first, then one line per recorded call. -/
def replay (qualname : Str) : M (List Str) :=
  M.bind Cache.init (fun _ =>
  M.bind (redis_lrange_all (qualname ++ bytes ":inputs")) (fun inputs =>
  M.bind (redis_lrange_all (qualname ++ bytes ":outputs")) (fun outputs =>
  M.bind (liftE (replayLines qualname (inputs.zip outputs))) (fun lines =>
  M.pure ((qualname ++ bytes " was called " ++ natToStr inputs.length
            ++ bytes " times:") :: lines)))))

/-- Run a list of `store` calls in order, collecting the returned keys. -/
def storeMany : List Payload → M (List Str)
  | [] => M.pure []
  | p :: ps =>
    M.bind (Cache.store p) (fun k =>
    M.bind (storeMany ps) (fun ks =>
    M.pure (k :: ks)))

/-! ## State predicates and primitive run lemmas -/

/-- The counter under `key` reads as the natural number `c`
(absent counts as 0, matching `INCR` semantics). -/
def counterIs (st : RState) (key : Str) (c : Nat) : Prop :=
  (c = 0 ∧ rlookup st key = Option.none) ∨
    rlookup st key = some (RVal.str (natToStr c))

/-- The list under `key` reads as `l` (absent counts as the empty list,
matching `RPUSH`/`LRANGE` semantics). -/
def listIs (st : RState) (key : Str) (l : List Str) : Prop :=
  (l = [] ∧ rlookup st key = Option.none) ∨
    rlookup st key = some (RVal.list l)

theorem storeQualname_ne_inputsKey : storeQualname ≠ inputsKey := by decide

theorem storeQualname_ne_outputsKey : storeQualname ≠ outputsKey := by decide

theorem inputsKey_ne_outputsKey : inputsKey ≠ outputsKey := by decide

theorem redis_incr_spec (s : CState) (key : Str) (c : Nat)
    (h : counterIs s.redis key c) :
    redis_incr key s =
      (.ok ((c : Int) + 1),
       { s with redis := (key, RVal.str (natToStr (c + 1))) :: s.redis },
       [.incrE key]) := by
  rcases h with ⟨hc0, hnone⟩ | hsome
  · subst hc0
    have h1 : intToStr 1 = natToStr (0 + 1) := by decide
    have h2 : ((0 : Nat) : Int) + 1 = 1 := by norm_num
    simp only [redis_incr, hnone, h1, h2]
  · have hdec : decodeInt (natToStr c) = some (c : Int) := decodeInt_natToStr c
    have hint : intToStr ((c : Int) + 1) = natToStr (c + 1) := by
      have hcast : ((c : Int) + 1) = ((c + 1 : Nat) : Int) := by push_cast; ring
      rw [hcast, intToStr_ofNat]
    simp only [redis_incr, hsome, hdec, hint]

theorem redis_rpush_spec (s : CState) (key v : Str) (l : List Str)
    (h : listIs s.redis key l) :
    ∃ cnt, redis_rpush key v s =
      (.ok cnt,
       { s with redis := (key, RVal.list (l ++ [v])) :: s.redis },
       [.rpushE key v]) := by
  rcases h with ⟨hl0, hnone⟩ | hsome
  · subst hl0
    exact ⟨1, by simp [redis_rpush, hnone]⟩
  · exact ⟨l.length + 1, by simp [redis_rpush, hsome]⟩

theorem store_raw_spec (p : Payload) (s : CState) :
    store_raw p s =
      (.ok (s.supply s.next),
       { s with
           redis := (s.supply s.next, RVal.str (encodePayload p)) :: s.redis
           next := s.next + 1 },
       [.setE (s.supply s.next) (encodePayload p)]) := rfl

/-- Exact run of one instrumented `Cache.store` call from any state whose
instrumentation keys are well-formed and whose fresh key is not one of
them: result, successor state, and command trace. -/
theorem store_spec (p : Payload) (s : CState) (c : Nat) (li lo : List Str)
    (hc : counterIs s.redis storeQualname c)
    (hi : listIs s.redis inputsKey li)
    (ho : listIs s.redis outputsKey lo)
    (hk : s.supply s.next ∉ reservedKeys) :
    Cache.store p s =
      (.ok (s.supply s.next),
       { redis := (outputsKey, RVal.list (lo ++ [s.supply s.next])) ::
                  (s.supply s.next, RVal.str (encodePayload p)) ::
                  (storeQualname, RVal.str (natToStr (c + 1))) ::
                  (inputsKey, RVal.list (li ++ [pyStrTuple1 p])) :: s.redis,
         next := s.next + 1,
         supply := s.supply },
       [Event.rpushE inputsKey (pyStrTuple1 p), Event.incrE storeQualname,
        Event.setE (s.supply s.next) (encodePayload p),
        Event.rpushE outputsKey (s.supply s.next)]) := by
  have hk' : ¬(s.supply s.next = storeQualname ∨ s.supply s.next = inputsKey ∨
      s.supply s.next = outputsKey) := by
    simpa [reservedKeys] using hk
  push_neg at hk'
  obtain ⟨hk1, hk2, hk3⟩ := hk'
  obtain ⟨cnt1, e1⟩ := redis_rpush_spec s inputsKey (pyStrTuple1 p) li hi
  set s1 : CState :=
    { s with redis := (inputsKey, RVal.list (li ++ [pyStrTuple1 p])) :: s.redis }
    with hs1
  have hc1 : counterIs s1.redis storeQualname c := by
    rcases hc with ⟨hc0, hnone⟩ | hsome
    · exact Or.inl ⟨hc0, by
        rw [hs1]
        simpa [rlookup_cons_ne inputsKey storeQualname _ _
          (Ne.symm storeQualname_ne_inputsKey)] using hnone⟩
    · exact Or.inr (by
        rw [hs1]
        simpa [rlookup_cons_ne inputsKey storeQualname _ _
          (Ne.symm storeQualname_ne_inputsKey)] using hsome)
  have e2 := redis_incr_spec s1 storeQualname c hc1
  set s2 : CState :=
    { s1 with redis := (storeQualname, RVal.str (natToStr (c + 1))) :: s1.redis }
    with hs2
  have e3 := store_raw_spec p s2
  set s3 : CState :=
    { s2 with
        redis := (s2.supply s2.next, RVal.str (encodePayload p)) :: s2.redis
        next := s2.next + 1 } with hs3
  have ho3 : listIs s3.redis outputsKey lo := by
    have hx1 : s2.supply s2.next ≠ outputsKey := hk3
    rcases ho with ⟨hl0, hnone⟩ | hsome
    · exact Or.inl ⟨hl0, by
        rw [hs3, hs2, hs1]
        simpa [rlookup_cons_ne _ _ _ _ hx1,
          rlookup_cons_ne _ _ _ _ (Ne.symm storeQualname_ne_outputsKey),
          rlookup_cons_ne _ _ _ _ (Ne.symm inputsKey_ne_outputsKey)]
          using hnone⟩
    · exact Or.inr (by
        rw [hs3, hs2, hs1]
        simpa [rlookup_cons_ne _ _ _ _ hx1,
          rlookup_cons_ne _ _ _ _ (Ne.symm storeQualname_ne_outputsKey),
          rlookup_cons_ne _ _ _ _ (Ne.symm inputsKey_ne_outputsKey)]
          using hsome)
  obtain ⟨cnt4, e4⟩ := redis_rpush_spec s3 outputsKey (s2.supply s2.next) lo ho3
  have hin : storeQualname ++ bytes ":inputs" = inputsKey := rfl
  have hout : storeQualname ++ bytes ":outputs" = outputsKey := rfl
  simp only [Cache.store, call_history, count_calls, M.bind, M.pure, hin, hout,
    e1, e2, e3, e4]
  simp

theorem range_map_shift (f : Nat → Str) (n0 N : Nat) :
    (List.range (N + 1)).map (fun i => f (n0 + i)) =
      f n0 :: (List.range N).map (fun i => f (n0 + 1 + i)) := by
  rw [List.range_succ_eq_map, List.map_cons, List.map_map, Nat.add_zero]
  have hfun : ((fun i => f (n0 + i)) ∘ Nat.succ) = (fun i => f (n0 + 1 + i)) := by
    funext i
    simp only [Function.comp_apply]
    exact congrArg f (by omega)
  rw [hfun]

/-- Master lemma: running `Cache.store` over a whole list of payloads from
any well-formed state (instrumentation keys parseable, fresh keys outside
the reserved ones) succeeds, returns the supplied keys in order, bumps the
counter once per call, appends one serialized input and one key per call to
the history lists in order, leaves every untouched key alone, and — when
the fresh keys are pairwise distinct — leaves each payload stored under the
key returned for it. -/
theorem storeMany_spec (ps : List Payload) :
    ∀ (s : CState) (c : Nat) (li lo : List Str),
      counterIs s.redis storeQualname c →
      listIs s.redis inputsKey li →
      listIs s.redis outputsKey lo →
      (∀ i, i < ps.length → s.supply (s.next + i) ∉ reservedKeys) →
      runRes (storeMany ps) s =
          .ok ((List.range ps.length).map (fun i => s.supply (s.next + i)))
        ∧ (runState (storeMany ps) s).next = s.next + ps.length
        ∧ (runState (storeMany ps) s).supply = s.supply
        ∧ counterIs (runState (storeMany ps) s).redis storeQualname
            (c + ps.length)
        ∧ listIs (runState (storeMany ps) s).redis inputsKey
            (li ++ ps.map pyStrTuple1)
        ∧ listIs (runState (storeMany ps) s).redis outputsKey
            (lo ++ (List.range ps.length).map (fun i => s.supply (s.next + i)))
        ∧ (∀ k, k ∉ reservedKeys →
            (∀ i, i < ps.length → k ≠ s.supply (s.next + i)) →
            rlookup (runState (storeMany ps) s).redis k = rlookup s.redis k)
        ∧ ((∀ i j, i < ps.length → j < ps.length →
              s.supply (s.next + i) = s.supply (s.next + j) → i = j) →
            ∀ i, ∀ h : i < ps.length,
              rlookup (runState (storeMany ps) s).redis (s.supply (s.next + i)) =
                some (RVal.str (encodePayload (ps.get ⟨i, h⟩)))) := by
  induction ps with
  | nil =>
    intro s c li lo hc hi ho hsup
    refine ⟨rfl, rfl, rfl, hc, ?_, ?_, fun k _ _ => rfl,
      fun _ i h => absurd h (by simp)⟩
    · simpa using hi
    · simpa using ho
  | cons p ps ih =>
    intro s c li lo hc hi ho hsup
    have hk0 : s.supply s.next ∉ reservedKeys := by
      simpa using hsup 0 (by simp)
    have hk0' : ¬(s.supply s.next = storeQualname ∨ s.supply s.next = inputsKey ∨
        s.supply s.next = outputsKey) := by
      simpa [reservedKeys] using hk0
    push_neg at hk0'
    obtain ⟨hkq, hki, hko⟩ := hk0'
    have e := store_spec p s c li lo hc hi ho hk0
    set s1 : CState :=
      { redis := (outputsKey, RVal.list (lo ++ [s.supply s.next])) ::
                 (s.supply s.next, RVal.str (encodePayload p)) ::
                 (storeQualname, RVal.str (natToStr (c + 1))) ::
                 (inputsKey, RVal.list (li ++ [pyStrTuple1 p])) :: s.redis
        next := s.next + 1
        supply := s.supply } with hs1
    have hc1 : counterIs s1.redis storeQualname (c + 1) := by
      refine Or.inr ?_
      rw [hs1]
      show rlookup _ storeQualname = _
      rw [rlookup_cons_ne _ _ _ _ (Ne.symm storeQualname_ne_outputsKey),
        rlookup_cons_ne _ _ _ _ hkq, rlookup_cons_self]
    have hi1 : listIs s1.redis inputsKey (li ++ [pyStrTuple1 p]) := by
      refine Or.inr ?_
      rw [hs1]
      show rlookup _ inputsKey = _
      rw [rlookup_cons_ne _ _ _ _ (Ne.symm inputsKey_ne_outputsKey),
        rlookup_cons_ne _ _ _ _ hki,
        rlookup_cons_ne _ _ _ _ storeQualname_ne_inputsKey, rlookup_cons_self]
    have ho1 : listIs s1.redis outputsKey (lo ++ [s.supply s.next]) := by
      refine Or.inr ?_
      rw [hs1]
      show rlookup _ outputsKey = _
      rw [rlookup_cons_self]
    have hsup1 : ∀ i, i < ps.length → s1.supply (s1.next + i) ∉ reservedKeys := by
      intro i hi'
      have h1 := hsup (i + 1) (by simp; omega)
      have harith : s.next + (i + 1) = s.next + 1 + i := by omega
      rw [harith] at h1
      simpa [hs1] using h1
    obtain ⟨R1, R2, R3, R4, R5, R6, R7, R8⟩ :=
      ih s1 (c + 1) (li ++ [pyStrTuple1 p]) (lo ++ [s.supply s.next])
        hc1 hi1 ho1 hsup1
    simp only [hs1] at R1 R2 R3 R4 R5 R6 R7 R8
    rcases hrun : storeMany ps s1 with ⟨r2, s2, tr2⟩
    rw [hs1] at hrun
    have hr2 : r2 =
        Except.ok ((List.range ps.length).map (fun i => s.supply (s.next + 1 + i))) := by
      rw [runRes, hrun] at R1
      exact R1
    subst hr2
    have hmain : storeMany (p :: ps) s =
        (Except.ok (s.supply s.next ::
            (List.range ps.length).map (fun i => s.supply (s.next + 1 + i))),
         s2,
         [Event.rpushE inputsKey (pyStrTuple1 p), Event.incrE storeQualname,
          Event.setE (s.supply s.next) (encodePayload p),
          Event.rpushE outputsKey (s.supply s.next)] ++ (tr2 ++ [])) := by
      simp only [storeMany, M.bind, M.pure, e, hs1, hrun]
    have hstate : runState (storeMany (p :: ps)) s = s2 := by
      rw [runState, hmain]
    have hstate2 : s2 = runState (storeMany ps)
        { redis := (outputsKey, RVal.list (lo ++ [s.supply s.next])) ::
                   (s.supply s.next, RVal.str (encodePayload p)) ::
                   (storeQualname, RVal.str (natToStr (c + 1))) ::
                   (inputsKey, RVal.list (li ++ [pyStrTuple1 p])) :: s.redis
          next := s.next + 1
          supply := s.supply } := by
      rw [runState, hrun]
    have hkeys : (List.range (p :: ps).length).map (fun i => s.supply (s.next + i)) =
        s.supply s.next ::
          (List.range ps.length).map (fun i => s.supply (s.next + 1 + i)) := by
      rw [List.length_cons]
      exact range_map_shift s.supply s.next ps.length
    refine ⟨?_, ?_, ?_, ?_, ?_, ?_, ?_, ?_⟩
    · rw [runRes, hmain, hkeys]
    · rw [hstate, hstate2, List.length_cons]
      omega
    · rw [hstate, hstate2]
      exact R3
    · rw [hstate, hstate2, List.length_cons]
      have harith : c + 1 + ps.length = c + (ps.length + 1) := by omega
      rw [← harith]
      exact R4
    · rw [hstate, hstate2, List.map_cons]
      have hassoc : li ++ pyStrTuple1 p :: ps.map pyStrTuple1 =
          (li ++ [pyStrTuple1 p]) ++ ps.map pyStrTuple1 := by simp
      rw [hassoc]
      exact R5
    · rw [hstate, hstate2, hkeys]
      have hassoc : lo ++ s.supply s.next ::
            (List.range ps.length).map (fun i => s.supply (s.next + 1 + i)) =
          (lo ++ [s.supply s.next]) ++
            (List.range ps.length).map (fun i => s.supply (s.next + 1 + i)) := by
        simp
      rw [hassoc]
      exact R6
    · intro k hkres hknew
      rw [hstate, hstate2]
      have hstep1 : rlookup (runState (storeMany ps)
          { redis := (outputsKey, RVal.list (lo ++ [s.supply s.next])) ::
                     (s.supply s.next, RVal.str (encodePayload p)) ::
                     (storeQualname, RVal.str (natToStr (c + 1))) ::
                     (inputsKey, RVal.list (li ++ [pyStrTuple1 p])) :: s.redis
            next := s.next + 1
            supply := s.supply }).redis k =
          rlookup ((outputsKey, RVal.list (lo ++ [s.supply s.next])) ::
                   (s.supply s.next, RVal.str (encodePayload p)) ::
                   (storeQualname, RVal.str (natToStr (c + 1))) ::
                   (inputsKey, RVal.list (li ++ [pyStrTuple1 p])) :: s.redis) k := by
        refine R7 k hkres ?_
        intro i hi'
        have := hknew (i + 1) (by simp; omega)
        have harith : s.next + (i + 1) = s.next + 1 + i := by omega
        rwa [harith] at this
      rw [hstep1]
      have hkr : ¬(k = storeQualname ∨ k = inputsKey ∨ k = outputsKey) := by
        simpa [reservedKeys] using hkres
      push_neg at hkr
      obtain ⟨hkr1, hkr2, hkr3⟩ := hkr
      have hknew0 : k ≠ s.supply s.next := by
        have := hknew 0 (by simp)
        simpa using this
      rw [rlookup_cons_ne _ _ _ _ (Ne.symm hkr3),
        rlookup_cons_ne _ _ _ _ (Ne.symm hknew0),
        rlookup_cons_ne _ _ _ _ (Ne.symm hkr1),
        rlookup_cons_ne _ _ _ _ (Ne.symm hkr2)]
    · intro hinj i h
      rw [hstate, hstate2]
      cases i with
      | zero =>
        have hframe : rlookup (runState (storeMany ps)
            { redis := (outputsKey, RVal.list (lo ++ [s.supply s.next])) ::
                       (s.supply s.next, RVal.str (encodePayload p)) ::
                       (storeQualname, RVal.str (natToStr (c + 1))) ::
                       (inputsKey, RVal.list (li ++ [pyStrTuple1 p])) :: s.redis
              next := s.next + 1
              supply := s.supply }).redis (s.supply s.next) =
            rlookup ((outputsKey, RVal.list (lo ++ [s.supply s.next])) ::
                     (s.supply s.next, RVal.str (encodePayload p)) ::
                     (storeQualname, RVal.str (natToStr (c + 1))) ::
                     (inputsKey, RVal.list (li ++ [pyStrTuple1 p])) :: s.redis)
              (s.supply s.next) := by
          refine R7 (s.supply s.next) hk0 ?_
          intro j hj heq
          have harith : s.next + 1 + j = s.next + (j + 1) := by omega
          rw [harith] at heq
          have := hinj 0 (j + 1) (by simp) (by simp; omega)
            (by simpa using heq)
          omega
        have hz : s.next + 0 = s.next := by omega
        rw [hz, hframe, rlookup_cons_ne _ _ _ _ (Ne.symm hko), rlookup_cons_self]
        rfl
      | succ j =>
        have hj : j < ps.length := by
          have := h
          simp at this
          omega
        have hinj1 : ∀ a b, a < ps.length → b < ps.length →
            s.supply (s.next + 1 + a) = s.supply (s.next + 1 + b) → a = b := by
          intro a b ha hb heq
          have ha1 : s.next + 1 + a = s.next + (a + 1) := by omega
          have hb1 : s.next + 1 + b = s.next + (b + 1) := by omega
          rw [ha1, hb1] at heq
          have := hinj (a + 1) (b + 1) (by simp; omega) (by simp; omega) heq
          omega
        have := R8 hinj1 j hj
        have harith : s.next + 1 + j = s.next + (j + 1) := by omega
        rw [harith] at this
        exact this

/-! ## Claim theorems -/

/-- The flushed state (the database right after `Cache.__init__`), with a
given uuid supply and cursor. -/
def initState (supply : Nat → Str) (n0 : Nat) : CState :=
  { redis := [], next := n0, supply := supply }

/-- A history list as `LRANGE key 0 -1` reads it: absent means empty. -/
def histList (st : RState) (key : Str) : List Str :=
  match rlookup st key with
  | some (RVal.list l) => l
  | _ => []

theorem histList_of_listIs (st : RState) (key : Str) (l : List Str)
    (h : listIs st key l) : histList st key = l := by
  rcases h with ⟨h0, hnone⟩ | hsome
  · subst h0
    simp [histList, hnone]
  · simp [histList, hsome]

/-- C1: after `store(v)`, `get` on the returned key with no converter
returns exactly the bytes the store holds for `v` — the payload's
byte-representation round-trip. -/
theorem store_get_roundtrip (p : Payload) (s : CState) (c : Nat)
    (li lo : List Str)
    (hc : counterIs s.redis storeQualname c)
    (hi : listIs s.redis inputsKey li)
    (ho : listIs s.redis outputsKey lo)
    (hk : s.supply s.next ∉ reservedKeys) :
    runRes (M.bind (Cache.store p) (fun key => Cache.get key Option.none)) s =
      .ok (PyVal.bytes (encodePayload p)) := by
  have hk' : ¬(s.supply s.next = storeQualname ∨ s.supply s.next = inputsKey ∨
      s.supply s.next = outputsKey) := by
    simpa [reservedKeys] using hk
  push_neg at hk'
  obtain ⟨hkq, hki, hko⟩ := hk'
  have e := store_spec p s c li lo hc hi ho hk
  have hlook : rlookup ((outputsKey, RVal.list (lo ++ [s.supply s.next])) ::
      (s.supply s.next, RVal.str (encodePayload p)) ::
      (storeQualname, RVal.str (natToStr (c + 1))) ::
      (inputsKey, RVal.list (li ++ [pyStrTuple1 p])) :: s.redis)
      (s.supply s.next) = some (RVal.str (encodePayload p)) := by
    rw [rlookup_cons_ne _ _ _ _ (Ne.symm hko), rlookup_cons_self]
  simp only [runRes, M.bind, e, Cache.get, redis_get, hlook, M.pure, pyOfRaw]

/-- C2: starting from the flushed state, after a sequence of N instrumented
`store` calls the persisted counter under the method's qualified name reads
exactly N (and every call succeeded, returning its key). -/
theorem counter_counts_calls (ps : List Payload) (supply : Nat → Str)
    (n0 : Nat) (hne : ps ≠ [])
    (hres : ∀ i, i < ps.length → supply (n0 + i) ∉ reservedKeys) :
    runRes (storeMany ps) (initState supply n0) =
        .ok ((List.range ps.length).map (fun i => supply (n0 + i)))
    ∧ rlookup (runState (storeMany ps) (initState supply n0)).redis
        storeQualname = some (RVal.str (natToStr ps.length)) := by
  have h0 : counterIs (initState supply n0).redis storeQualname 0 :=
    Or.inl ⟨rfl, rfl⟩
  have h1 : listIs (initState supply n0).redis inputsKey [] := Or.inl ⟨rfl, rfl⟩
  have h2 : listIs (initState supply n0).redis outputsKey [] := Or.inl ⟨rfl, rfl⟩
  obtain ⟨R1, _, _, R4, _, _, _, _⟩ :=
    storeMany_spec ps (initState supply n0) 0 [] [] h0 h1 h2 hres
  refine ⟨R1, ?_⟩
  rcases R4 with ⟨hz, _⟩ | hv
  · exact absurd (List.length_eq_zero.mp (by omega)) hne
  · rw [Nat.zero_add] at hv
    exact hv

/-- C3: starting from the flushed state, after a sequence of N instrumented
`store` calls the inputs history holds exactly the N serialized argument
tuples in call order, and the outputs history holds exactly the N returned
keys in call order; both have length N. -/
theorem history_records_calls (ps : List Payload) (supply : Nat → Str)
    (n0 : Nat)
    (hres : ∀ i, i < ps.length → supply (n0 + i) ∉ reservedKeys) :
    runRes (storeMany ps) (initState supply n0) =
        .ok ((List.range ps.length).map (fun i => supply (n0 + i)))
    ∧ histList (runState (storeMany ps) (initState supply n0)).redis
        inputsKey = ps.map pyStrTuple1
    ∧ histList (runState (storeMany ps) (initState supply n0)).redis
        outputsKey = (List.range ps.length).map (fun i => supply (n0 + i))
    ∧ (histList (runState (storeMany ps) (initState supply n0)).redis
        inputsKey).length = ps.length
    ∧ (histList (runState (storeMany ps) (initState supply n0)).redis
        outputsKey).length = ps.length := by
  have h0 : counterIs (initState supply n0).redis storeQualname 0 :=
    Or.inl ⟨rfl, rfl⟩
  have h1 : listIs (initState supply n0).redis inputsKey [] := Or.inl ⟨rfl, rfl⟩
  have h2 : listIs (initState supply n0).redis outputsKey [] := Or.inl ⟨rfl, rfl⟩
  obtain ⟨R1, _, _, _, R5, R6, _, _⟩ :=
    storeMany_spec ps (initState supply n0) 0 [] [] h0 h1 h2 hres
  have hin := histList_of_listIs _ _ _ R5
  have hout := histList_of_listIs _ _ _ R6
  rw [List.nil_append] at hin hout
  exact ⟨R1, hin, hout, by rw [hin]; simp, by rw [hout]; simp⟩

/-- C9: with an injective uuid supply avoiding the instrumentation keys,
every `store` call succeeds and returns a fresh key, the returned keys of
distinct calls are pairwise distinct, and each payload sits in the store
under the key returned for it. -/
theorem store_keys_fresh_distinct (ps : List Payload) (supply : Nat → Str)
    (n0 : Nat)
    (hres : ∀ i, i < ps.length → supply (n0 + i) ∉ reservedKeys)
    (hinj : Function.Injective supply) :
    runRes (storeMany ps) (initState supply n0) =
        .ok ((List.range ps.length).map (fun i => supply (n0 + i)))
    ∧ ((List.range ps.length).map (fun i => supply (n0 + i))).Nodup
    ∧ ∀ i, ∀ h : i < ps.length,
        rlookup (runState (storeMany ps) (initState supply n0)).redis
            (supply (n0 + i)) =
          some (RVal.str (encodePayload (ps.get ⟨i, h⟩))) := by
  have h0 : counterIs (initState supply n0).redis storeQualname 0 :=
    Or.inl ⟨rfl, rfl⟩
  have h1 : listIs (initState supply n0).redis inputsKey [] := Or.inl ⟨rfl, rfl⟩
  have h2 : listIs (initState supply n0).redis outputsKey [] := Or.inl ⟨rfl, rfl⟩
  obtain ⟨R1, _, _, _, _, _, _, R8⟩ :=
    storeMany_spec ps (initState supply n0) 0 [] [] h0 h1 h2 hres
  refine ⟨R1, ?_, ?_⟩
  · refine List.Nodup.map ?_ (List.nodup_range ps.length)
    intro a b hab
    have := hinj hab
    omega
  · intro i h
    exact R8 (fun a b _ _ heq => by have := hinj heq; omega) i h

/-- The raw reply `GET key` yields, when it does not raise: `none` for an
absent key, the stored bytes otherwise. -/
def rawOf (st : RState) (key : Str) : Option (Option Str) :=
  match rlookup st key with
  | Option.none => some Option.none
  | some (RVal.str b) => some (some b)
  | some (RVal.list _) => Option.none

/-- C6: `get_str` and `get_int` on a key that was never stored return the
absent sentinel (`None`) unchanged: they do not raise, and the result is
neither a decoded empty string nor a parsed zero. -/
theorem missing_key_sentinel (s : CState) (k : Str)
    (h : rlookup s.redis k = Option.none) :
    runRes (Cache.get_str k) s = .ok PyVal.none
    ∧ runRes (Cache.get_int k) s = .ok PyVal.none
    ∧ PyVal.none ≠ PyVal.str []
    ∧ PyVal.none ≠ PyVal.int 0 := by
  refine ⟨?_, ?_, by decide, by decide⟩
  · simp only [runRes, Cache.get_str, Cache.get, M.bind, redis_get, h,
      M.pure, pyOfRaw]
  · simp only [runRes, Cache.get_int, Cache.get, M.bind, redis_get, h,
      M.pure, pyOfRaw]

/-- C7: `get(key, fn)` returns `fn` applied to the raw reply when a
converter is supplied, and the raw reply unchanged (possibly the absent
sentinel) when none is. -/
theorem get_converter_semantics (s : CState) (k : Str) (b : Option Str)
    (f : Conv) (h : rawOf s.redis k = some b) :
    runRes (Cache.get k (some f)) s = f b
    ∧ runRes (Cache.get k Option.none) s = .ok (pyOfRaw b) := by
  rcases hcase : rlookup s.redis k with _ | val
  · have hb : b = Option.none := by
      simp [rawOf, hcase] at h
      exact h.symm
    subst hb
    constructor
    · simp only [runRes, Cache.get, M.bind, redis_get, hcase, liftE]
    · simp only [runRes, Cache.get, M.bind, redis_get, hcase, M.pure]
  · cases val with
    | str bb =>
      have hb : b = some bb := by
        simp [rawOf, hcase] at h
        exact h.symm
      subst hb
      constructor
      · simp only [runRes, Cache.get, M.bind, redis_get, hcase, liftE]
      · simp only [runRes, Cache.get, M.bind, redis_get, hcase, M.pure]
    | list l =>
      have : rawOf s.redis k = Option.none := by simp [rawOf, hcase]
      rw [this] at h
      exact absurd h (by simp)

/-- C10: when a converter is supplied, `get` applies it even to the absent
sentinel: on a missing key the result is exactly `fn None` — including the
error `fn` raises on the null value, since `Conv` returns `Except`. -/
theorem converter_applied_to_missing (s : CState) (k : Str) (f : Conv)
    (h : rlookup s.redis k = Option.none) :
    runRes (Cache.get k (some f)) s = f Option.none := by
  simp only [runRes, Cache.get, M.bind, redis_get, h, liftE]

/-- C5 (amended): only the empty byte string short-circuits: on a stored
empty string both `get_str` and `get_int` return the raw falsy value
unconverted, while a stored literal integer 0 is the nonempty byte string
"0", which is truthy, so `get_str` decodes it and `get_int` parses it. -/
theorem falsy_passthrough_amended (s : CState) (k0 kE : Str)
    (h0 : rlookup s.redis k0 = some (RVal.str (bytes "0")))
    (hE : rlookup s.redis kE = some (RVal.str [])) :
    runRes (Cache.get_str kE) s = .ok (PyVal.bytes [])
    ∧ runRes (Cache.get_int kE) s = .ok (PyVal.bytes [])
    ∧ runRes (Cache.get_str k0) s = .ok (PyVal.str (bytes "0"))
    ∧ runRes (Cache.get_int k0) s = .ok (PyVal.int 0) := by
  have hdec : decodeInt (bytes "0") = some 0 := by decide
  have hne : (bytes "0" : Str) ≠ [] := by decide
  refine ⟨?_, ?_, ?_, ?_⟩
  · simp [runRes, Cache.get_str, Cache.get, M.bind, redis_get, hE,
      M.pure, pyOfRaw]
  · simp [runRes, Cache.get_int, Cache.get, M.bind, redis_get, hE,
      M.pure, pyOfRaw]
  · simp [runRes, Cache.get_str, Cache.get, M.bind, redis_get, h0,
      M.pure, pyOfRaw, hne]
  · simp [runRes, Cache.get_int, Cache.get, M.bind, redis_get, h0,
      M.pure, pyOfRaw, hne, hdec]

/-- A concrete uuid supply for witnesses and counterexamples:
u0, u1, u2, ...; none of these collide with the instrumentation keys. -/
def wSupply : Nat → Str := fun i => 'u' :: natToStr i

/-- Decidable equality of run results, for evaluating concrete runs. -/
instance {e a : Type} [DecidableEq e] [DecidableEq a] :
    DecidableEq (Except e a) := fun x y =>
  match x, y with
  | .ok u, .ok v =>
    if h : u = v then .isTrue (by rw [h])
    else .isFalse (fun hh => h (by injection hh))
  | .error u, .error v =>
    if h : u = v then .isTrue (by rw [h])
    else .isFalse (fun hh => h (by injection hh))
  | .ok _, .error _ => .isFalse (fun hh => Except.noConfusion hh)
  | .error _, .ok _ => .isFalse (fun hh => Except.noConfusion hh)

/-- C5 (counterexample): after `store(0)` the stored value is the literal
integer 0, yet `get_int` on its key returns the parsed integer 0 and
`get_str` the decoded text "0" — not the raw byte string "0": the claimed
falsy short-circuit does not apply to a stored 0, because the byte string
"0" is non-empty and hence truthy. -/
theorem get_conversion_on_zero :
    runRes (M.bind (Cache.store (Payload.int 0)) (fun k => Cache.get_int k))
        (initState wSupply 0) = .ok (PyVal.int 0)
    ∧ runRes (M.bind (Cache.store (Payload.int 0)) (fun k => Cache.get_str k))
        (initState wSupply 0) = .ok (PyVal.str (bytes "0"))
    ∧ PyVal.int 0 ≠ PyVal.bytes (bytes "0")
    ∧ PyVal.str (bytes "0") ≠ PyVal.bytes (bytes "0") :=
  ⟨by decide, by decide, by decide, by decide⟩

/-- `replay` flushes the shared database first (its fresh `Cache()`), so
from any state it reads empty history lists and yields only the summary
line reporting zero calls. -/
theorem replay_spec (q : Str) (s : CState) :
    replay q s =
      (.ok [q ++ bytes " was called " ++ natToStr 0 ++ bytes " times:"],
       { s with redis := [] },
       [Event.flushE, Event.lrangeE (q ++ bytes ":inputs"),
        Event.lrangeE (q ++ bytes ":outputs")]) := rfl

/-- C4: after three `store` calls with "a", "b", "c", `replay` prints only
`Cache.store was called 0 times:` and no per-call lines — because `replay`
constructs a fresh `Cache()`, whose `__init__` flushes the shared database
before the history is read.  The summary the claim expects (3 calls) is a
different line. -/
theorem replay_after_three_stores :
    runRes (M.bind (storeMany [Payload.str (bytes "a"), Payload.str (bytes "b"),
        Payload.str (bytes "c")]) (fun _ => replay storeQualname))
      (initState wSupply 0) = .ok [bytes "Cache.store was called 0 times:"]
    ∧ bytes "Cache.store was called 0 times:" ≠
        bytes "Cache.store was called 3 times:" := by
  refine ⟨?_, by decide⟩
  obtain ⟨R1, _, _, _, _, _, _, _⟩ :=
    storeMany_spec [Payload.str (bytes "a"), Payload.str (bytes "b"),
        Payload.str (bytes "c")] (initState wSupply 0) 0 [] []
      (Or.inl ⟨rfl, rfl⟩) (Or.inl ⟨rfl, rfl⟩) (Or.inl ⟨rfl, rfl⟩) (by decide)
  rcases hrun : storeMany [Payload.str (bytes "a"), Payload.str (bytes "b"),
      Payload.str (bytes "c")] (initState wSupply 0) with ⟨r, s2, tr⟩
  have hr := R1
  rw [runRes, hrun] at hr
  subst hr
  simp only [runRes, M.bind, hrun, replay_spec]
  decide

theorem self_ne_append (q t : Str) (h : t ≠ []) : q ≠ q ++ t := by
  intro he
  have hl := congrArg List.length he
  rw [List.length_append] at hl
  have ht : t.length = 0 := by omega
  exact h (List.length_eq_zero.mp ht)

/-- C8: for an operation instrumented as in the source (`call_history`
outermost over `count_calls` over the raw method), one invocation issues
its commands in exactly this order: inputs append, counter increment, the
raw method's own commands, then (on success) the outputs append.  The raw
method observes the already-incremented counter, and when it fails the
error propagates with no outputs append and no rollback: the final state
is exactly the raw method's failure state. -/
theorem instrumented_call_order {α β : Type} (q : Str) (ra : α → Str)
    (rr : β → Str) (f : α → M β) (a : α) (s : CState) (c : Nat)
    (l : List Str)
    (hq : counterIs s.redis q c)
    (hIn : listIs s.redis (q ++ bytes ":inputs") l)
    (res : Except Err β) (s3 : CState) (tr3 : List Event)
    (hf : f a { s with redis := (q, RVal.str (natToStr (c + 1))) ::
            (q ++ bytes ":inputs", RVal.list (l ++ [ra a])) :: s.redis }
          = (res, s3, tr3)) :
    counterIs ((q, RVal.str (natToStr (c + 1))) ::
        (q ++ bytes ":inputs", RVal.list (l ++ [ra a])) :: s.redis) q (c + 1)
    ∧ (∀ e, res = .error e →
        call_history q ra rr (count_calls q f) a s =
          (.error e, s3, Event.rpushE (q ++ bytes ":inputs") (ra a) ::
            Event.incrE q :: tr3))
    ∧ (∀ b, res = .ok b → ∀ lo, listIs s3.redis (q ++ bytes ":outputs") lo →
        call_history q ra rr (count_calls q f) a s =
          (.ok b,
           { s3 with redis := (q ++ bytes ":outputs",
               RVal.list (lo ++ [rr b])) :: s3.redis },
           Event.rpushE (q ++ bytes ":inputs") (ra a) :: Event.incrE q ::
             (tr3 ++ [Event.rpushE (q ++ bytes ":outputs") (rr b)]))) := by
  have hne_in : q ≠ q ++ bytes ":inputs" :=
    self_ne_append q (bytes ":inputs") (by decide)
  obtain ⟨cnt1, e1⟩ := redis_rpush_spec s (q ++ bytes ":inputs") (ra a) l hIn
  have hq1 : counterIs
      ((q ++ bytes ":inputs", RVal.list (l ++ [ra a])) :: s.redis) q c := by
    rcases hq with ⟨h0, hn⟩ | hs
    · exact Or.inl ⟨h0, by
        rw [rlookup_cons_ne _ _ _ _ (Ne.symm hne_in)]; exact hn⟩
    · exact Or.inr (by
        rw [rlookup_cons_ne _ _ _ _ (Ne.symm hne_in)]; exact hs)
  have e2 := redis_incr_spec
    { s with redis := (q ++ bytes ":inputs", RVal.list (l ++ [ra a])) :: s.redis }
    q c hq1
  refine ⟨Or.inr (rlookup_cons_self q _ _), ?_, ?_⟩
  · intro e he
    subst he
    simp only [call_history, count_calls, M.bind, e1, e2, hf]
    simp
  · intro b hb lo hlo
    subst hb
    obtain ⟨cnt4, e4⟩ :=
      redis_rpush_spec s3 (q ++ bytes ":outputs") (rr b) lo hlo
    simp only [call_history, count_calls, M.bind, M.pure, e1, e2, hf, e4]
    simp

/-! ## Witnesses: concrete instantiations of the hypotheses -/

theorem natToStr_injective : Function.Injective natToStr := by
  intro a b h
  have ha := decodeNat_natToStr a
  rw [h, decodeNat_natToStr b] at ha
  injection ha with hh
  exact hh.symm

theorem wSupply_injective : Function.Injective wSupply := by
  intro a b h
  simp only [wSupply] at h
  injection h with h1 h2
  exact natToStr_injective h2

/-- A small payload list for witnesses. -/
def wPayloads : List Payload := [Payload.str (bytes "a"), Payload.str (bytes "b")]

/-- A converter for witnesses: wraps present bytes, raises `TypeError` on
the absent sentinel (as Python `int(None)` would). -/
def wConv : Conv := fun v =>
  match v with
  | some b => .ok (PyVal.bytes b)
  | Option.none => .error Err.typeError

/-- A state holding one string value, for the `get` witnesses. -/
def wState7 : CState :=
  { redis := [(bytes "k", RVal.str (bytes "7"))], next := 0, supply := wSupply }

/-- A state holding the byte forms of a stored `0` and a stored empty
string, for the falsy-value witnesses. -/
def wStateF : CState :=
  { redis := [(bytes "z", RVal.str (bytes "0")), (bytes "e", RVal.str [])],
    next := 0, supply := wSupply }

theorem store_get_roundtrip_witness :
    runRes (M.bind (Cache.store (Payload.str (bytes "hi")))
        (fun key => Cache.get key Option.none)) (initState wSupply 0) =
      .ok (PyVal.bytes (encodePayload (Payload.str (bytes "hi")))) :=
  store_get_roundtrip (Payload.str (bytes "hi")) (initState wSupply 0) 0 [] []
    (Or.inl ⟨rfl, rfl⟩) (Or.inl ⟨rfl, rfl⟩) (Or.inl ⟨rfl, rfl⟩) (by decide)

theorem counter_counts_calls_witness :
    runRes (storeMany wPayloads) (initState wSupply 0) =
        .ok ((List.range wPayloads.length).map (fun i => wSupply (0 + i)))
    ∧ rlookup (runState (storeMany wPayloads) (initState wSupply 0)).redis
        storeQualname = some (RVal.str (natToStr 2)) :=
  counter_counts_calls wPayloads wSupply 0 (by decide) (by decide)

theorem history_records_calls_witness :
    runRes (storeMany wPayloads) (initState wSupply 0) =
        .ok ((List.range wPayloads.length).map (fun i => wSupply (0 + i)))
    ∧ histList (runState (storeMany wPayloads) (initState wSupply 0)).redis
        inputsKey = wPayloads.map pyStrTuple1
    ∧ histList (runState (storeMany wPayloads) (initState wSupply 0)).redis
        outputsKey = (List.range wPayloads.length).map (fun i => wSupply (0 + i))
    ∧ (histList (runState (storeMany wPayloads) (initState wSupply 0)).redis
        inputsKey).length = wPayloads.length
    ∧ (histList (runState (storeMany wPayloads) (initState wSupply 0)).redis
        outputsKey).length = wPayloads.length :=
  history_records_calls wPayloads wSupply 0 (by decide)

theorem store_keys_fresh_distinct_witness :
    runRes (storeMany wPayloads) (initState wSupply 0) =
        .ok ((List.range wPayloads.length).map (fun i => wSupply (0 + i)))
    ∧ ((List.range wPayloads.length).map (fun i => wSupply (0 + i))).Nodup
    ∧ rlookup (runState (storeMany wPayloads) (initState wSupply 0)).redis
        (wSupply (0 + 0)) =
        some (RVal.str (encodePayload (Payload.str (bytes "a")))) := by
  obtain ⟨h1, h2, h3⟩ :=
    store_keys_fresh_distinct wPayloads wSupply 0 (by decide) wSupply_injective
  exact ⟨h1, h2, h3 0 (by decide)⟩

theorem missing_key_sentinel_witness :
    runRes (Cache.get_str (bytes "nope")) (initState wSupply 0) = .ok PyVal.none
    ∧ runRes (Cache.get_int (bytes "nope")) (initState wSupply 0) = .ok PyVal.none
    ∧ PyVal.none ≠ PyVal.str []
    ∧ PyVal.none ≠ PyVal.int 0 :=
  missing_key_sentinel (initState wSupply 0) (bytes "nope") rfl

theorem get_converter_semantics_witness :
    runRes (Cache.get (bytes "k") (some wConv)) wState7 =
        .ok (PyVal.bytes (bytes "7"))
    ∧ runRes (Cache.get (bytes "k") Option.none) wState7 =
        .ok (PyVal.bytes (bytes "7")) :=
  get_converter_semantics wState7 (bytes "k") (some (bytes "7")) wConv (by decide)

theorem converter_applied_to_missing_witness :
    runRes (Cache.get (bytes "nope") (some wConv)) (initState wSupply 0) =
      .error Err.typeError :=
  converter_applied_to_missing (initState wSupply 0) (bytes "nope") wConv rfl

theorem falsy_passthrough_witness :
    runRes (Cache.get_str (bytes "e")) wStateF = .ok (PyVal.bytes [])
    ∧ runRes (Cache.get_int (bytes "e")) wStateF = .ok (PyVal.bytes [])
    ∧ runRes (Cache.get_str (bytes "z")) wStateF = .ok (PyVal.str (bytes "0"))
    ∧ runRes (Cache.get_int (bytes "z")) wStateF = .ok (PyVal.int 0) :=
  falsy_passthrough_amended wStateF (bytes "z") (bytes "e") (by decide) (by decide)

theorem instrumented_call_order_witness :
    call_history (bytes "Q") (fun _ : Unit => bytes "()")
      (fun _ : PyVal => bytes "r")
      (count_calls (bytes "Q") (fun _ : Unit => liftE (Except.error Err.valueError)))
      () (initState wSupply 0) =
      (.error Err.valueError,
       { redis := (bytes "Q", RVal.str (natToStr 1)) ::
           (bytes "Q" ++ bytes ":inputs", RVal.list [bytes "()"]) :: ([] : RState),
         next := 0, supply := wSupply },
       Event.rpushE (bytes "Q" ++ bytes ":inputs") (bytes "()") ::
         Event.incrE (bytes "Q") :: []) := by
  have h := instrumented_call_order (bytes "Q") (fun _ : Unit => bytes "()")
    (fun _ : PyVal => bytes "r")
    (fun _ : Unit => liftE (Except.error Err.valueError)) () (initState wSupply 0)
    0 [] (Or.inl ⟨rfl, rfl⟩) (Or.inl ⟨rfl, rfl⟩)
    (Except.error Err.valueError) _ [] rfl
  exact h.2.1 Err.valueError rfl
